import Mathlib

/-!
Verification of the wormhole IRC/Slack bridge (`wormhole/server.py`).

All byte strings and text strings of the Python source are modelled as
`List Char`.  Functions that can raise an uncaught Python exception are
modelled with `Option`, where `none` stands for the raised exception.
-/

set_option maxRecDepth 4096

/-! ## Python string helpers -/

/-- Boolean test that `hay` begins with `needle` (Python `s.startswith(t)`). -/
def startsWithSub : List Char → List Char → Bool
  | [], _ => true
  | _ :: _, [] => false
  | n :: ns, h :: hs => n == h && startsWithSub ns hs

/-- Boolean test that `needle` occurs contiguously inside `hay`
(Python `needle in hay` for strings). -/
def occursIn (needle : List Char) : List Char → Bool
  | [] => startsWithSub needle []
  | c :: rest => startsWithSub needle (c :: rest) || occursIn needle rest

/-- Boolean test that the character `c` occurs in `l`
(Python `c in s` for a one-character `c`). -/
def containsChar (c : Char) : List Char → Bool
  | [] => false
  | a :: rest => a == c || containsChar c rest

/-- Python `s.split(sep, 1)` for a nonempty separator: the text before the
first occurrence of `sep`, and, when `sep` occurs, the text after it. -/
def splitOnFirst (sep : List Char) : List Char → List Char × Option (List Char)
  | [] => ([], none)
  | c :: rest =>
    if startsWithSub sep (c :: rest) then ([], some (List.drop sep.length (c :: rest)))
    else (c :: (splitOnFirst sep rest).1, (splitOnFirst sep rest).2)

/-- Python `s.split(" ")`, presented as the first token plus the remaining
tokens.  Empty tokens are kept, exactly as in Python. -/
def splitSp1 : List Char → List Char × List (List Char)
  | [] => ([], [])
  | c :: rest =>
    if c = ' ' then ([], (splitSp1 rest).1 :: (splitSp1 rest).2)
    else (c :: (splitSp1 rest).1, (splitSp1 rest).2)

/-- Python `s.find(c)`: index of the first occurrence of `c`, or `-1`. -/
def pyFind (c : Char) : List Char → Int
  | [] => -1
  | a :: rest =>
    if a = c then 0
    else if pyFind c rest < 0 then -1 else pyFind c rest + 1

/-- Python `s.strip(ch)` for a single strip character: removes every copy of
`ch` from both ends. -/
def pyStripChar (ch : Char) (l : List Char) : List Char :=
  ((l.dropWhile (· == ch)).reverse.dropWhile (· == ch)).reverse

/-- Python `s.strip()`: removes whitespace from both ends. -/
def pyStripWs (l : List Char) : List Char :=
  ((l.dropWhile Char.isWhitespace).reverse.dropWhile Char.isWhitespace).reverse

/-- Python `s.lower()`. -/
def lowerStr (l : List Char) : List Char := l.map Char.toLower

/-! ## The Event record and the line parser (`IRCClient._read_message`) -/

/-- Structured record produced for each received line (the `Event` namedtuple
of the source).  The `raw` bytes and the decoded `line` coincide in this
model, so only `line` is kept. -/
structure Event where
  line : List Char
  source : Option (List Char)
  nick : Option (List Char)
  user : Option (List Char)
  host : Option (List Char)
  code : List Char
  args : List (List Char)
  msg : List Char
  channel : Option (List Char)
deriving DecidableEq

/-- Extraction of `nick`/`user`/`host` from the prefix source, exactly as in
the code: `i = source.find("!")`, `j = source.find("@")`, and the three
slices `source[:i]`, `source[i+1:j]`, `source[j+1:]` are taken only when
`i > 0 and j > 0`. -/
def parseSource (s : List Char) : Option (List Char) × Option (List Char) × Option (List Char) :=
  let i := pyFind '!' s
  let j := pyFind '@' s
  if 0 < i ∧ 0 < j then
    (some (s.take i.toNat), some ((s.take j.toNat).drop (i.toNat + 1)), some (s.drop (j.toNat + 1)))
  else (none, none, none)

/-- The two-character separator `" :"` used for the trailing parameter. -/
def sepSpColon : List Char := [' ', ':']

/-- Parsing of the remainder after the optional prefix: `sp = msg.split(" :", 1)`,
`code, *args = sp[0].split(" ")`, and when the trailing part is present it is
appended verbatim as one final argument. -/
def parseRemainder (msgRest : List Char) : List Char × List (List Char) :=
  match splitOnFirst sepSpColon msgRest with
  | (before, none) => splitSp1 before
  | (before, some after) => ((splitSp1 before).1, (splitSp1 before).2 ++ [after])

/-- Building the Event from the computed pieces; `none` models the
`IndexError` raised by `args[-1]` and `args[0]` when `args` is empty. -/
def parseWith (line : List Char) (source : Option (List Char)) (msgRest : List Char) :
    Option Event :=
  match parseRemainder msgRest with
  | (_, []) => none
  | (code, a0 :: restArgs) =>
    let nuh := match source with
      | some s => parseSource s
      | none => (none, none, none)
    some { line := line, source := source,
           nick := nuh.1, user := nuh.2.1, host := nuh.2.2,
           code := code, args := a0 :: restArgs,
           msg := (a0 :: restArgs).getLastD [],
           channel := if containsChar '#' a0 then some a0 else none }

/-- The full line parser (`IRCClient._read_message` up to the construction of
the Event).  `none` models an uncaught exception: `line[0]` on an empty line
(`IndexError`), `line.index(" ")` on a prefixed line with no space
(`ValueError`), or `args[-1]` when no argument was produced (`IndexError`). -/
def parseLine (line : List Char) : Option Event :=
  match line with
  | [] => none
  | c :: _ =>
    if c = ':' then
      match splitOnFirst [' '] line with
      | (_, none) => none
      | (beforeSp, some msgRest) => parseWith line (some (beforeSp.drop 1)) msgRest
    else parseWith line none line

/-- The exact domain on which the parser returns an Event: the line is
nonempty, a `':'`-prefixed line has a space, and the remainder after the
prefix contains a space (so that at least one argument is produced). -/
def parseGood (line : List Char) : Bool :=
  match line with
  | [] => false
  | c :: _ =>
    if c = ':' then
      match splitOnFirst [' '] line with
      | (_, none) => false
      | (_, some msgRest) => containsChar ' ' msgRest
    else containsChar ' ' line

/-- Concrete event used to witness `event_source_fields`: the parse of
`":nick!user@host PRIVMSG #chan :hello world"`. -/
def exampleSourceEvent : Event :=
  { line := ":nick!user@host PRIVMSG #chan :hello world".data,
    source := some "nick!user@host".data,
    nick := some "nick".data, user := some "user".data, host := some "host".data,
    code := "PRIVMSG".data,
    args := ["#chan".data, "hello world".data],
    msg := "hello world".data,
    channel := some "#chan".data }

/-! ## Dispatcher (`IRCClient.handle_event` and `IRCClient.dispatch`) -/

/-- The `PONG` reply line `"PONG {0}".format(event.args[0])`. -/
def pongLine (arg0 : List Char) : List Char := "PONG ".data ++ arg0

/-- `IRCClient.handle_event`, modelled by its observable effects: the lines
sent synchronously on the stream, and the registered handlers the event is
dispatched to (`dispatch` spawns a callback for every entry of
`IRC_COMMAND_REGISTRY`, modelled as the list of registered handler names).
`none` models the `IndexError` of `event.args[0]` on an empty argument
list. -/
def handle_event (registry : List (List Char)) (e : Event) :
    Option (List (List Char) × List (List Char)) :=
  if e.code = "PING".data then
    match e.args with
    | [] => none
    | a0 :: _ => some ([pongLine a0], [])
  else some ([], registry)

/-! ## Highlight rules (`HIGHLIGHTS`, `get_highlights_for`, `contains_highlight`) -/

/-- A highlight trigger: either a bare substring, or a list of terms that
must all occur (the source distinguishes the two by `isinstance(hl, list)`). -/
inductive Trigger where
  | single : List Char → Trigger
  | conj : List (List Char) → Trigger
deriving DecidableEq

/-- The highlight rule table (the `HIGHLIGHTS` dict loaded from settings):
channel name (without `#`), or the sentinel `"all"`, to trigger list. -/
abbrev Highlights := List (List Char × List Trigger)

/-- `get_highlights_for`: chain of the `"all"` rules and the rules of the
`#`-stripped channel, in that order. -/
def get_highlights_for (hls : Highlights) (channel : List Char) : List Trigger :=
  ((hls.lookup "all".data).getD []) ++ ((hls.lookup (pyStripChar '#' channel)).getD [])

/-- One trigger tested against the (already lower-cased) message, as in the
loop body of `contains_highlight`. -/
def triggerMatches (msg : List Char) : Trigger → Bool
  | .single t => occursIn t msg
  | .conj ts => ts.all fun t => occursIn t msg

/-- `contains_highlight(event)`.  `none` models the `AttributeError` raised
by `channel.strip("#")` inside `get_highlights_for` when `event.channel` is
`None`; the non-`PRIVMSG` early return happens before the channel is
touched. -/
def contains_highlight (hls : Highlights) (e : Event) : Option Bool :=
  if e.code ≠ "PRIVMSG".data then some false
  else
    match e.channel with
    | none => none
    | some ch => some ((get_highlights_for hls ch).any (triggerMatches (lowerStr e.msg)))

/-! ## Connection state: `join` and `ping_insights` -/

/-- The mutable state of `IRCClient` that the bridge handlers touch. -/
structure BotState where
  channels : List (List Char)
  most_recent_highlight_channel : Option (List Char)
  most_recent_highlight_nick : Option (List Char)
deriving DecidableEq

/-- `IRCClient.join`: add `"#" + channel` to the channel set and send
`JOIN #channel`.  Returns the new state and the lines sent. -/
def join (s : BotState) (channel : List Char) : BotState × List (List Char) :=
  ({ s with channels := s.channels.insert ('#' :: channel) },
   ["JOIN #".data ++ channel])

/-- Rendering of an optional field inside a Python f-string (`None` prints
as the text `None`). -/
def optStr : Option (List Char) → List Char
  | some s => s
  | none => "None".data

/-- The text posted to the Slack hook:
`f"({event.channel}) {event.nick} says: {event.msg}"` (the JSON wrapper
around this text is not modelled). -/
def slack_text (e : Event) : List Char :=
  "(".data ++ optStr e.channel ++ ") ".data ++ optStr e.nick ++ " says: ".data ++ e.msg

/-- Observable outcome of one `ping_insights` call: the resulting client
state, the bodies of the HTTP posts attempted, and whether an exception
escaped the handler. -/
structure PingResult where
  state : BotState
  requests : List (List Char)
  raised : Bool
deriving DecidableEq

/-- The `ping_insights` handler.  `postOk` abstracts the outcome of
`requests.post` (`false` = the call raised).  The routing state is updated
after the post, so it is updated only when the post returned. -/
def ping_insights (hls : Highlights) (postOk : Bool) (s : BotState) (e : Event) :
    PingResult :=
  match contains_highlight hls e with
  | none => ⟨s, [], true⟩
  | some false => ⟨s, [], false⟩
  | some true =>
    if postOk then
      ⟨{ s with most_recent_highlight_channel := e.channel,
                most_recent_highlight_nick := e.nick }, [slack_text e], false⟩
    else ⟨s, [slack_text e], true⟩

/-! ## Outbound colour markup (`color_wrap`) -/

/-- The open-brace character of the placeholder syntax. -/
def braceL : Char := Char.ofNat 123

/-- The close-brace character of the placeholder syntax. -/
def braceR : Char := Char.ofNat 125

/-- A word character of the placeholder name, the `\w` of the regex
(modelled on its ASCII range; every colour name is ASCII). -/
def isWordChar (c : Char) : Bool := c.isAlphanum || c == '_'

/-- The colour table of `color_wrap`. -/
def colors : List (List Char × List Char) :=
  [("white".data, "00".data), ("black".data, "01".data), ("navy".data, "02".data),
   ("green".data, "03".data), ("red".data, "04".data), ("brown".data, "05".data),
   ("purple".data, "06".data), ("orange".data, "07".data), ("yellow".data, "08".data),
   ("lime".data, "09".data), ("teal".data, "10".data), ("cyan".data, "11".data),
   ("blue".data, "12".data), ("pink".data, "13".data), ("gray".data, "14".data),
   ("silver".data, "15".data), ("reset".data, "99".data)]

/-- The replacement `_wrap` performs on one matched placeholder name:
`"\x03%s" % color` for a recognized name, the bare name otherwise. -/
def colorSub (w : List Char) : List Char :=
  match colors.lookup w with
  | some code => '\x03' :: code
  | none => w

/-- Fuel-indexed scan of `re.sub(r'\$\x7b(\w+)\x7d', _wrap, msg)`: at each
position, either a whole placeholder token is matched and replaced, or one
character is emitted unchanged.  The fuel only needs to dominate the input
length. -/
def colorWrapFuel : Nat → List Char → List Char
  | 0, l => l
  | _ + 1, [] => []
  | fuel + 1, c :: rest =>
    if c = '$' then
      match rest with
      | c2 :: rest2 =>
        if c2 = braceL then
          match rest2.dropWhile isWordChar with
          | c3 :: tail =>
            if c3 = braceR ∧ rest2.takeWhile isWordChar ≠ [] then
              colorSub (rest2.takeWhile isWordChar) ++ colorWrapFuel fuel tail
            else c :: colorWrapFuel fuel rest
          | [] => c :: colorWrapFuel fuel rest
        else c :: colorWrapFuel fuel rest
      | [] => c :: colorWrapFuel fuel []
    else c :: colorWrapFuel fuel rest

/-- `color_wrap(msg)`: the placeholder-substitution pass. -/
def color_wrap (l : List Char) : List Char := colorWrapFuel l.length l

/-! ## `send_to_channel` and `send_from_slack` -/

/-- The line sent by `IRCClient.send_to_channel`:
`"PRIVMSG {channel} :{line}"` with colour markup applied to the text. -/
def send_to_channel_line (channel line : List Char) : List Char :=
  "PRIVMSG ".data ++ channel ++ " :".data ++ color_wrap line

/-- The decoration applied to inbound Slack text:
`f"[slack] @{user} said '{msg}'"`. -/
def decorated_message (user m : List Char) : List Char :=
  "[slack] @".data ++ user ++ " said \x27".data ++ m ++ "\x27".data

/-- `IRCClient.send_from_slack`, modelled by its observable effects:
the error messages logged and the lines sent, in order. -/
def send_from_slack (s : BotState) (user msg : List Char) :
    List (List Char) × List (List Char) :=
  match splitOnFirst [':'] msg with
  | (before, some after) =>
    let channel := '#' :: pyStripChar '#' before
    let m := pyStripWs after
    let errs :=
      if s.channels.contains channel then []
      else [user ++ " requested to send a message to a channel I\x27m not connected to! (".data
              ++ channel ++ ")".data]
    (errs, [send_to_channel_line channel (decorated_message user m)])
  | (_, none) =>
    match s.most_recent_highlight_channel with
    | some ch => ([], [send_to_channel_line ch (decorated_message user msg)])
    | none => (["I don\x27t know where to send the message from ".data ++ user], [])

/-! ## Re-joining of code and args -/

/-- Joining a token list back with single spaces. -/
def joinTokens (tokens : List (List Char)) : List Char :=
  (tokens.map (fun t => ' ' :: t)).flatten

/-- Re-joining the argument list: every argument is prefixed by a space, and
the last one is quoted with `" :"` when it contains a space. -/
def unparseArgs : List (List Char) → List Char
  | [] => []
  | [a] => if containsChar ' ' a then ' ' :: ':' :: a else ' ' :: a
  | a :: rest => (' ' :: a) ++ unparseArgs rest

/-- Re-joining `code` and `args` into a line. -/
def unparse (code : List Char) (args : List (List Char)) : List Char :=
  code ++ unparseArgs args

/-- Well-formedness of a remainder line with a trailing-parameter segment:
the `" :"` marker is present, and the trailing text either contains a space
(so the re-join quotes it) or does not start with a colon. -/
def wellFormedTrailing (msgRest : List Char) : Bool :=
  match splitOnFirst sepSpColon msgRest with
  | (_, none) => false
  | (_, some after) => containsChar ' ' after || !(startsWithSub [':'] after)

/-- Example rule table of the spec:
`{"all": ["urgent"], "dev": [["build", "failed"]]}`. -/
def exampleHighlights : Highlights :=
  [("all".data, [Trigger.single "urgent".data]),
   ("dev".data, [Trigger.conj ["build".data, "failed".data]])]

/-- Example event: `PRIVMSG` to `#dev` saying `the BUILD failed today`. -/
def exampleDevEvent : Event :=
  { line := ":n!u@h PRIVMSG #dev :the BUILD failed today".data,
    source := some "n!u@h".data, nick := some "n".data, user := some "u".data,
    host := some "h".data, code := "PRIVMSG".data,
    args := ["#dev".data, "the BUILD failed today".data],
    msg := "the BUILD failed today".data, channel := some "#dev".data }

/-! ## Lemmas about the string helpers -/

theorem startsWithSub_iff (s : List Char) :
    ∀ l, startsWithSub s l = true ↔ ∃ t, l = s ++ t := by
  induction s with
  | nil =>
    intro l
    simp [startsWithSub]
  | cons n ns ih =>
    intro l
    cases l with
    | nil => simp [startsWithSub]
    | cons h hs =>
      simp only [startsWithSub, Bool.and_eq_true, beq_iff_eq, ih hs]
      constructor
      · rintro ⟨rfl, t, rfl⟩
        exact ⟨t, rfl⟩
      · rintro ⟨t, ht⟩
        cases ht
        exact ⟨rfl, t, rfl⟩

theorem splitOnFirst_none_eq (sep : List Char) :
    ∀ l, (splitOnFirst sep l).2 = none → (splitOnFirst sep l).1 = l := by
  intro l
  induction l with
  | nil => intro _; rfl
  | cons c rest ih =>
    intro h
    by_cases hs : startsWithSub sep (c :: rest) = true
    · simp [splitOnFirst, hs] at h
    · simp only [splitOnFirst, hs, Bool.false_eq_true, if_false] at h ⊢
      rw [ih h]

theorem splitOnFirst_some_eq (sep : List Char) :
    ∀ l b a, splitOnFirst sep l = (b, some a) → l = b ++ sep ++ a := by
  intro l
  induction l with
  | nil => intro b a h; simp [splitOnFirst] at h
  | cons c rest ih =>
    intro b a h
    by_cases hs : startsWithSub sep (c :: rest) = true
    · rcases (startsWithSub_iff sep (c :: rest)).1 hs with ⟨t, ht⟩
      simp only [splitOnFirst, hs, if_true, Prod.mk.injEq, Option.some.injEq] at h
      obtain ⟨hb, ha⟩ := h
      subst hb
      rw [← ha, ht, List.nil_append, List.drop_left]
    · simp only [splitOnFirst, hs, Bool.false_eq_true, if_false, Prod.mk.injEq] at h
      obtain ⟨hb, ha⟩ := h
      cases b with
      | nil => simp at hb
      | cons b0 bs =>
        obtain ⟨hb0, hbs⟩ := List.cons.injEq .. ▸ hb
        subst hb0
        have := ih bs a (by rw [Prod.ext_iff]; exact ⟨hbs, ha⟩)
        simp [this]

theorem containsChar_append (c : Char) (x y : List Char) :
    containsChar c (x ++ y) = (containsChar c x || containsChar c y) := by
  induction x with
  | nil => simp [containsChar]
  | cons a rest ih => simp [containsChar, ih, Bool.or_assoc]

theorem splitSp1_snd_nil (l : List Char) :
    (splitSp1 l).2 = [] ↔ containsChar ' ' l = false := by
  induction l with
  | nil => simp [splitSp1, containsChar]
  | cons c rest ih =>
    by_cases hc : c = ' '
    · subst hc
      simp [splitSp1, containsChar]
    · simp only [splitSp1, hc, if_false, containsChar, ih]
      simp [hc]

theorem parseRemainder_snd_nil (m : List Char) :
    (parseRemainder m).2 = [] ↔ containsChar ' ' m = false := by
  rcases h : splitOnFirst sepSpColon m with ⟨b, o⟩
  cases o with
  | none =>
    have hb : b = m := by
      have h2 := splitOnFirst_none_eq sepSpColon m
      rw [h] at h2
      exact h2 rfl
    subst hb
    unfold parseRemainder
    rw [h]
    exact splitSp1_snd_nil b
  | some a =>
    have hm : m = b ++ sepSpColon ++ a := splitOnFirst_some_eq sepSpColon m b a h
    unfold parseRemainder
    rw [h]
    show (splitSp1 b).2 ++ [a] = [] ↔ containsChar ' ' m = false
    constructor
    · intro hcontra
      exact absurd hcontra (by simp)
    · intro hnone
      rw [hm] at hnone
      simp only [List.append_assoc, containsChar_append] at hnone
      simp [sepSpColon, containsChar] at hnone

/-! ## The success domain of the parser (C2) -/

theorem parseWith_isSome (line : List Char) (src : Option (List Char)) (m : List Char) :
    (parseWith line src m).isSome = containsChar ' ' m := by
  rcases h : parseRemainder m with ⟨code, args⟩
  cases args with
  | nil =>
    have hf : containsChar ' ' m = false := by
      rw [← parseRemainder_snd_nil, h]
    unfold parseWith
    rw [h, hf]
    rfl
  | cons a0 r =>
    have ht : containsChar ' ' m = true := by
      cases hc : containsChar ' ' m with
      | false =>
        have h2 := (parseRemainder_snd_nil m).2 hc
        rw [h] at h2
        exact absurd h2 (by simp)
      | true => rfl
    unfold parseWith
    rw [h, ht]
    rfl

/-- C2 (amended): the parser succeeds exactly on `parseGood` lines — nonempty,
with a space after a `':'` prefix, and with a space in the remainder so that
at least one argument is produced.  On every other line it raises. -/
theorem parseLine_isSome_eq_parseGood (line : List Char) :
    (parseLine line).isSome = parseGood line := by
  cases line with
  | nil => rfl
  | cons c rest =>
    show (if c = ':' then
        match splitOnFirst [' '] (c :: rest) with
        | (_, none) => none
        | (beforeSp, some msgRest) =>
          parseWith (c :: rest) (some (beforeSp.drop 1)) msgRest
      else parseWith (c :: rest) none (c :: rest)).isSome =
      (if c = ':' then
        match splitOnFirst [' '] (c :: rest) with
        | (_, none) => false
        | (_, some msgRest) => containsChar ' ' msgRest
      else containsChar ' ' (c :: rest))
    by_cases hc : c = ':'
    · rw [if_pos hc, if_pos hc]
      rcases h : splitOnFirst [' '] (c :: rest) with ⟨b, o⟩
      cases o with
      | none => rfl
      | some mr => exact parseWith_isSome _ _ mr
    · rw [if_neg hc, if_neg hc]
      exact parseWith_isSome _ _ _

/-- C2 counterexample: the parser is not total.  It raises (modelled `none`)
on the empty line (`line[0]` IndexError), on a bare command with no
parameters such as `"PING"` (`args[-1]` IndexError), and on a `':'`-prefixed
line with no following space (`line.index(" ")` ValueError). -/
theorem parseLine_not_total :
    parseLine [] = none ∧ parseLine "PING".data = none ∧
      parseLine ":server.example".data = none := by
  refine ⟨rfl, ?_, ?_⟩ <;> decide

/-! ## The prefix source fields (C3) -/

theorem parseWith_fields (line : List Char) (src : Option (List Char)) (m : List Char)
    (e : Event) (h : parseWith line src m = some e) :
    e.source = src ∧ (e.nick, e.user, e.host) = src.elim (none, none, none) parseSource := by
  unfold parseWith at h
  rcases hr : parseRemainder m with ⟨code, args⟩
  rw [hr] at h
  cases args with
  | nil => exact absurd h (by simp)
  | cons a0 r =>
    injection h with h2
    subst h2
    cases src <;> exact ⟨rfl, rfl⟩

theorem parseSource_cases (s : List Char) :
    (0 < pyFind '!' s ∧ 0 < pyFind '@' s →
      (parseSource s).1.isSome = true ∧ (parseSource s).2.1.isSome = true ∧
        (parseSource s).2.2.isSome = true) ∧
    (¬(0 < pyFind '!' s ∧ 0 < pyFind '@' s) → parseSource s = (none, none, none)) := by
  constructor
  · intro hij
    simp [parseSource, hij]
  · intro hij
    simp [parseSource, hij]

/-- C3 counterexample: in the prefix `a@b!c` the `'@'` appears before the
`'!'`, yet the parser still sets all three of nick, user and host (to the
degenerate slices `"a@b"`, `""` and `"b!c"`), contradicting the claim that
they are left unset unless `'!'` appears before `'@'`. -/
theorem parse_at_before_bang_sets_fields :
    Option.map Event.nick (parseLine ":a@b!c PRIVMSG #x :hi".data) = some (some "a@b".data) ∧
    Option.map Event.user (parseLine ":a@b!c PRIVMSG #x :hi".data) = some (some []) ∧
    Option.map Event.host (parseLine ":a@b!c PRIVMSG #x :hi".data) = some (some "b!c".data) := by
  refine ⟨?_, ?_, ?_⟩ <;> decide

/-- C3 (amended): for every event the parser produces with a prefix source,
nick, user and host are all set together exactly when the source contains
`'!'` at a positive index and `'@'` at a positive index — in either order —
and are all left unset together otherwise. -/
theorem event_source_fields (line : List Char) (e : Event) (s : List Char)
    (hp : parseLine line = some e) (hs : e.source = some s) :
    ((0 < pyFind '!' s ∧ 0 < pyFind '@' s) ∧
        e.nick.isSome = true ∧ e.user.isSome = true ∧ e.host.isSome = true) ∨
    (¬(0 < pyFind '!' s ∧ 0 < pyFind '@' s) ∧
        e.nick = none ∧ e.user = none ∧ e.host = none) := by
  cases line with
  | nil => exact absurd hp (by simp [parseLine])
  | cons c rest =>
    have hp' : (if c = ':' then
        match splitOnFirst [' '] (c :: rest) with
        | (_, none) => none
        | (beforeSp, some msgRest) =>
          parseWith (c :: rest) (some (beforeSp.drop 1)) msgRest
      else parseWith (c :: rest) none (c :: rest)) = some e := hp
    by_cases hc : c = ':'
    · rw [if_pos hc] at hp'
      rcases hsp : splitOnFirst [' '] (c :: rest) with ⟨b, o⟩
      rw [hsp] at hp'
      cases o with
      | none => exact absurd hp' (by simp)
      | some mr =>
        obtain ⟨hsrc, hnuh0⟩ := parseWith_fields _ _ _ _ hp'
        have hnuh1 : (e.nick, e.user, e.host) = parseSource (b.drop 1) := hnuh0
        rw [hs] at hsrc
        have hss : s = b.drop 1 := Option.some.inj hsrc
        have hnuh : (e.nick, e.user, e.host) = parseSource s := by
          rw [hss]; exact hnuh1
        by_cases hij : 0 < pyFind '!' s ∧ 0 < pyFind '@' s
        · left
          obtain ⟨h1, h2, h3⟩ := (parseSource_cases s).1 hij
          refine ⟨hij, ?_, ?_, ?_⟩
          · rw [show e.nick = (e.nick, e.user, e.host).1 from rfl, hnuh]; exact h1
          · rw [show e.user = (e.nick, e.user, e.host).2.1 from rfl, hnuh]; exact h2
          · rw [show e.host = (e.nick, e.user, e.host).2.2 from rfl, hnuh]; exact h3
        · right
          have hz := (parseSource_cases s).2 hij
          rw [hz] at hnuh
          refine ⟨hij, ?_, ?_, ?_⟩
          · exact congrArg (fun t => t.1) hnuh
          · exact congrArg (fun t => t.2.1) hnuh
          · exact congrArg (fun t => t.2.2) hnuh
    · rw [if_neg hc] at hp'
      obtain ⟨hsrc, _⟩ := parseWith_fields _ _ _ _ hp'
      rw [hs] at hsrc
      cases hsrc

theorem event_source_fields_witness :
    ((0 < pyFind '!' "nick!user@host".data ∧ 0 < pyFind '@' "nick!user@host".data) ∧
        exampleSourceEvent.nick.isSome = true ∧ exampleSourceEvent.user.isSome = true ∧
        exampleSourceEvent.host.isSome = true) ∨
    (¬(0 < pyFind '!' "nick!user@host".data ∧ 0 < pyFind '@' "nick!user@host".data) ∧
        exampleSourceEvent.nick = none ∧ exampleSourceEvent.user = none ∧
        exampleSourceEvent.host = none) :=
  event_source_fields ":nick!user@host PRIVMSG #chan :hello world".data
    exampleSourceEvent "nick!user@host".data (by decide) (by decide)

/-! ## The dispatcher (C4) -/

/-- C4: an event whose code is `"PING"` is answered synchronously with
exactly one line `PONG <first argument>` and is dispatched to no handler;
an event with any other code sends nothing and is dispatched to every
registered handler. -/
theorem handle_event_spec (registry : List (List Char)) (e : Event) :
    (∀ a0 rest, e.code = "PING".data → e.args = a0 :: rest →
      handle_event registry e = some ([pongLine a0], [])) ∧
    (e.code ≠ "PING".data → handle_event registry e = some ([], registry)) := by
  constructor
  · intro a0 rest hcode hargs
    unfold handle_event
    rw [if_pos hcode, hargs]
  · intro hcode
    unfold handle_event
    rw [if_neg hcode]

theorem handle_event_spec_witness :
    (handle_event ["ping".data]
        { line := "PING :server.example".data, source := none, nick := none,
          user := none, host := none, code := "PING".data,
          args := ["server.example".data], msg := "server.example".data,
          channel := none } = some ([pongLine "server.example".data], [])) ∧
    (handle_event ["ping".data]
        { line := ":a@b PRIVMSG #x :hi".data, source := some "a@b".data, nick := none,
          user := none, host := none, code := "PRIVMSG".data,
          args := ["#x".data, "hi".data], msg := "hi".data,
          channel := some "#x".data } = some ([], ["ping".data])) :=
  ⟨(handle_event_spec ["ping".data] _).1 "server.example".data [] (by decide) (by decide),
   (handle_event_spec ["ping".data] _).2 (by decide)⟩

/-! ## The highlight predicate (C5, C10) -/

theorem occursIn_iff (needle : List Char) :
    ∀ hay, occursIn needle hay = true ↔ ∃ p q, hay = p ++ needle ++ q := by
  intro hay
  induction hay with
  | nil =>
    simp only [occursIn]
    rw [startsWithSub_iff]
    constructor
    · rintro ⟨t, ht⟩
      exact ⟨[], t, by simpa using ht⟩
    · rintro ⟨p, q, hpq⟩
      rcases (by simpa using hpq.symm : p = [] ∧ needle = [] ∧ q = []) with ⟨_, h4, _⟩
      exact ⟨[], by simp [h4]⟩
  | cons c rest ih =>
    simp only [occursIn, Bool.or_eq_true, startsWithSub_iff, ih]
    constructor
    · rintro (⟨t, ht⟩ | ⟨p, q, hpq⟩)
      · exact ⟨[], t, by simpa using ht⟩
      · exact ⟨c :: p, q, by simp [hpq]⟩
    · rintro ⟨p, q, hpq⟩
      cases p with
      | nil => exact Or.inl ⟨q, by simpa using hpq⟩
      | cons p0 ps =>
        right
        simp only [List.cons_append, List.cons.injEq] at hpq
        exact ⟨ps, q, hpq.2⟩

theorem triggerMatches_iff (msg : List Char) (t : Trigger) :
    triggerMatches msg t = true ↔
      (match t with
       | .single s => ∃ p q, msg = p ++ s ++ q
       | .conj ts => ∀ s ∈ ts, ∃ p q, msg = p ++ s ++ q) := by
  cases t with
  | single s => simpa [triggerMatches] using occursIn_iff s msg
  | conj ts =>
    simp only [triggerMatches, List.all_eq_true]
    constructor
    · intro h s hs
      exact (occursIn_iff s msg).1 (h s hs)
    · intro h s hs
      exact (occursIn_iff s msg).2 (h s hs)

/-- C5: for an event with a channel, the highlight predicate returns true
exactly when the code is `PRIVMSG` and some trigger of the `"all"` rules
followed by the channel's rules matches the lower-cased message: a bare
trigger when it is a substring, a list trigger when every term is a
substring.  (The scan returns at the first match, so the result is the
disjunction over the chained rule list.) -/
theorem contains_highlight_spec (hls : Highlights) (e : Event) (ch : List Char)
    (hch : e.channel = some ch) :
    contains_highlight hls e = some true ↔
      (e.code = "PRIVMSG".data ∧ ∃ t ∈ get_highlights_for hls ch,
        (match t with
         | .single s => ∃ p q, lowerStr e.msg = p ++ s ++ q
         | .conj ts => ∀ s ∈ ts, ∃ p q, lowerStr e.msg = p ++ s ++ q)) := by
  unfold contains_highlight
  by_cases hcode : e.code = "PRIVMSG".data
  · rw [if_neg (fun hne => hne hcode), hch]
    simp only [Option.some.injEq, List.any_eq_true]
    constructor
    · rintro ⟨t, ht, hm⟩
      exact ⟨hcode, t, ht, (triggerMatches_iff _ t).1 hm⟩
    · rintro ⟨_, t, ht, hm⟩
      exact ⟨t, ht, (triggerMatches_iff _ t).2 hm⟩
  · rw [if_pos hcode]
    simp [hcode]

theorem contains_highlight_spec_witness :
    contains_highlight exampleHighlights exampleDevEvent = some true ↔
      (exampleDevEvent.code = "PRIVMSG".data ∧
        ∃ t ∈ get_highlights_for exampleHighlights "#dev".data,
        (match t with
         | .single s => ∃ p q, lowerStr exampleDevEvent.msg = p ++ s ++ q
         | .conj ts => ∀ s ∈ ts, ∃ p q, lowerStr exampleDevEvent.msg = p ++ s ++ q)) :=
  contains_highlight_spec exampleHighlights exampleDevEvent "#dev".data rfl

/-- C10: a `PRIVMSG` event whose first argument contains no `#` has an
unset channel, and on such an event the highlight predicate does not return
false gracefully: it raises (modelled `none`) at `channel.strip("#")`, and
the exception escapes the `ping_insights` handler (`raised = true`). -/
theorem contains_highlight_none_channel (hls : Highlights) (postOk : Bool)
    (s : BotState) (e : Event)
    (hcode : e.code = "PRIVMSG".data) (hch : e.channel = none) :
    contains_highlight hls e = none ∧
      (ping_insights hls postOk s e).raised = true ∧
      (ping_insights hls postOk s e).state = s := by
  have h1 : contains_highlight hls e = none := by
    unfold contains_highlight
    rw [if_neg (fun hne => hne hcode), hch]
  refine ⟨h1, ?_, ?_⟩ <;> (unfold ping_insights; rw [h1])

theorem contains_highlight_none_channel_witness :
    contains_highlight exampleHighlights
        { line := ":n!u@h PRIVMSG wormhole :urgent thing".data,
          source := some "n!u@h".data, nick := some "n".data, user := some "u".data,
          host := some "h".data, code := "PRIVMSG".data,
          args := ["wormhole".data, "urgent thing".data],
          msg := "urgent thing".data, channel := none } = none ∧
      (ping_insights exampleHighlights true ⟨[], none, none⟩
        { line := ":n!u@h PRIVMSG wormhole :urgent thing".data,
          source := some "n!u@h".data, nick := some "n".data, user := some "u".data,
          host := some "h".data, code := "PRIVMSG".data,
          args := ["wormhole".data, "urgent thing".data],
          msg := "urgent thing".data, channel := none }).raised = true ∧
      (ping_insights exampleHighlights true ⟨[], none, none⟩
        { line := ":n!u@h PRIVMSG wormhole :urgent thing".data,
          source := some "n!u@h".data, nick := some "n".data, user := some "u".data,
          host := some "h".data, code := "PRIVMSG".data,
          args := ["wormhole".data, "urgent thing".data],
          msg := "urgent thing".data, channel := none }).state = ⟨[], none, none⟩ :=
  contains_highlight_none_channel exampleHighlights true ⟨[], none, none⟩ _
    (by decide) (by decide)

/-! ## The forward-on-highlight handler (C6) -/

/-- C6: when the highlight predicate matches, the handler posts exactly one
body `(<channel>) <nick> says: <msg>` to the hook, and it updates the
most-recent-highlight routing state to this event's channel and nick only
when the post returned; when the post raises, the state is unchanged. -/
theorem ping_insights_spec (hls : Highlights) (postOk : Bool) (s : BotState)
    (e : Event) (hhl : contains_highlight hls e = some true) :
    (ping_insights hls postOk s e).requests = [slack_text e] ∧
    (postOk = true →
      (ping_insights hls postOk s e).state.most_recent_highlight_channel = e.channel ∧
      (ping_insights hls postOk s e).state.most_recent_highlight_nick = e.nick ∧
      (ping_insights hls postOk s e).state.channels = s.channels ∧
      (ping_insights hls postOk s e).raised = false) ∧
    (postOk = false →
      (ping_insights hls postOk s e).state = s ∧
      (ping_insights hls postOk s e).raised = true) := by
  unfold ping_insights
  rw [hhl]
  cases postOk <;> simp

theorem ping_insights_spec_witness :
    (ping_insights exampleHighlights true ⟨["#dev".data], none, none⟩
        exampleDevEvent).requests = [slack_text exampleDevEvent] ∧
    (true = true →
      (ping_insights exampleHighlights true ⟨["#dev".data], none, none⟩
          exampleDevEvent).state.most_recent_highlight_channel = exampleDevEvent.channel ∧
      (ping_insights exampleHighlights true ⟨["#dev".data], none, none⟩
          exampleDevEvent).state.most_recent_highlight_nick = exampleDevEvent.nick ∧
      (ping_insights exampleHighlights true ⟨["#dev".data], none, none⟩
          exampleDevEvent).state.channels = ["#dev".data] ∧
      (ping_insights exampleHighlights true ⟨["#dev".data], none, none⟩
          exampleDevEvent).raised = false) ∧
    (true = false →
      (ping_insights exampleHighlights true ⟨["#dev".data], none, none⟩
          exampleDevEvent).state = ⟨["#dev".data], none, none⟩ ∧
      (ping_insights exampleHighlights true ⟨["#dev".data], none, none⟩
          exampleDevEvent).raised = true) :=
  ping_insights_spec exampleHighlights true ⟨["#dev".data], none, none⟩
    exampleDevEvent (by decide)

/-! ## Joining channels (C7) -/

/-- C7: joining the same channel twice is idempotent on the membership state
but not on the wire: from any state that holds at most one copy of the
entry (as every state built through set insertion does), two `join name`
calls leave exactly one entry `#name` in the channel set while sending two
`JOIN #name` lines. -/
theorem join_twice (s : BotState) (name : List Char)
    (h : s.channels.count ('#' :: name) ≤ 1) :
    (join (join s name).1 name).1.channels.count ('#' :: name) = 1 ∧
    (join s name).2 ++ (join (join s name).1 name).2 =
      ["JOIN #".data ++ name, "JOIN #".data ++ name] := by
  refine ⟨?_, rfl⟩
  show ((s.channels.insert ('#' :: name)).insert ('#' :: name)).count ('#' :: name) = 1
  by_cases hm : ('#' :: name) ∈ s.channels
  · rw [List.insert_of_mem hm, List.insert_of_mem hm]
    have h1 : 0 < s.channels.count ('#' :: name) := List.count_pos_iff.2 hm
    omega
  · rw [List.insert_of_not_mem hm]
    have hm2 : ('#' :: name) ∈ ('#' :: name) :: s.channels := List.mem_cons_self _ _
    rw [List.insert_of_mem hm2, List.count_cons_self]
    rw [List.count_eq_zero.2 hm]

theorem join_twice_witness :
    (join (join ⟨[], none, none⟩ "chan".data).1 "chan".data).1.channels.count
        ('#' :: "chan".data) = 1 ∧
    (join ⟨[], none, none⟩ "chan".data).2 ++
        (join (join ⟨[], none, none⟩ "chan".data).1 "chan".data).2 =
      ["JOIN #".data ++ "chan".data, "JOIN #".data ++ "chan".data] :=
  join_twice ⟨[], none, none⟩ "chan".data (by decide)

/-! ## The inbound routing bug (C1) -/

/-- C1 (code bug): an inbound Slack message `"general: deploy done"` while
`#general` is not joined.  The code logs the cannot-deliver error but then
falls through — there is no early return — and still sends the decorated
message to `#general` on IRC, contradicting the documented drop. -/
theorem send_from_slack_unknown_channel_still_sends :
    send_from_slack ⟨[], none, none⟩ "alice".data "general: deploy done".data =
      (["alice requested to send a message to a channel I\x27m not connected to! (#general)".data],
       ["PRIVMSG #general :[slack] @alice said \x27deploy done\x27".data]) := by
  decide

/-! ## Colour markup equations (C8) -/

theorem dropWhile_len_le (p : Char → Bool) :
    ∀ l : List Char, (l.dropWhile p).length ≤ l.length := by
  intro l
  induction l with
  | nil => simp
  | cons a rest ih =>
    rw [List.dropWhile_cons]
    by_cases hp : p a = true
    · rw [if_pos hp]
      exact Nat.le_trans ih (Nat.le_succ _)
    · rw [if_neg hp]

theorem colorWrapFuel_nil : ∀ n, colorWrapFuel n [] = [] := by
  intro n
  cases n <;> rfl

theorem colorWrapFuel_succ_cons (fuel : Nat) (c : Char) (rest : List Char) (hc : c ≠ '$') :
    colorWrapFuel (fuel + 1) (c :: rest) = c :: colorWrapFuel fuel rest := by
  have h0 : colorWrapFuel (fuel + 1) (c :: rest) =
      (if c = '$' then
        (match rest with
         | c2 :: rest2 =>
           if c2 = braceL then
             (match rest2.dropWhile isWordChar with
              | c3 :: tail =>
                if c3 = braceR ∧ rest2.takeWhile isWordChar ≠ [] then
                  colorSub (rest2.takeWhile isWordChar) ++ colorWrapFuel fuel tail
                else c :: colorWrapFuel fuel rest
              | [] => c :: colorWrapFuel fuel rest)
           else c :: colorWrapFuel fuel rest
         | [] => c :: colorWrapFuel fuel [])
       else c :: colorWrapFuel fuel rest) := rfl
  rw [h0, if_neg hc]

theorem colorWrapFuel_succ_dollar_nil (fuel : Nat) :
    colorWrapFuel (fuel + 1) ['$'] = '$' :: colorWrapFuel fuel [] := rfl

theorem colorWrapFuel_succ_dollar_nb (fuel : Nat) (c2 : Char) (rest2 : List Char)
    (hc2 : c2 ≠ braceL) :
    colorWrapFuel (fuel + 1) ('$' :: c2 :: rest2) =
      '$' :: colorWrapFuel fuel (c2 :: rest2) := by
  have h0 : colorWrapFuel (fuel + 1) ('$' :: c2 :: rest2) =
      (if ('$' : Char) = '$' then
        (if c2 = braceL then
          (match rest2.dropWhile isWordChar with
           | c3 :: tail =>
             if c3 = braceR ∧ rest2.takeWhile isWordChar ≠ [] then
               colorSub (rest2.takeWhile isWordChar) ++ colorWrapFuel fuel tail
             else '$' :: colorWrapFuel fuel (c2 :: rest2)
           | [] => '$' :: colorWrapFuel fuel (c2 :: rest2))
         else '$' :: colorWrapFuel fuel (c2 :: rest2))
       else '$' :: colorWrapFuel fuel (c2 :: rest2)) := rfl
  rw [h0, if_pos rfl, if_neg hc2]

theorem colorWrapFuel_succ_dollar (fuel : Nat) (rest2 : List Char) (c3 : Char)
    (tail : List Char) (hdw : rest2.dropWhile isWordChar = c3 :: tail) :
    colorWrapFuel (fuel + 1) ('$' :: braceL :: rest2) =
      if c3 = braceR ∧ rest2.takeWhile isWordChar ≠ [] then
        colorSub (rest2.takeWhile isWordChar) ++ colorWrapFuel fuel tail
      else '$' :: colorWrapFuel fuel (braceL :: rest2) := by
  have h0 : colorWrapFuel (fuel + 1) ('$' :: braceL :: rest2) =
      (if ('$' : Char) = '$' then
        (if braceL = braceL then
          (match rest2.dropWhile isWordChar with
           | c3' :: tail' =>
             if c3' = braceR ∧ rest2.takeWhile isWordChar ≠ [] then
               colorSub (rest2.takeWhile isWordChar) ++ colorWrapFuel fuel tail'
             else '$' :: colorWrapFuel fuel (braceL :: rest2)
           | [] => '$' :: colorWrapFuel fuel (braceL :: rest2))
         else '$' :: colorWrapFuel fuel (braceL :: rest2))
       else '$' :: colorWrapFuel fuel (braceL :: rest2)) := rfl
  rw [h0, if_pos rfl, if_pos rfl, hdw]

theorem colorWrapFuel_succ_dollar_dwnil (fuel : Nat) (rest2 : List Char)
    (hdw : rest2.dropWhile isWordChar = []) :
    colorWrapFuel (fuel + 1) ('$' :: braceL :: rest2) =
      '$' :: colorWrapFuel fuel (braceL :: rest2) := by
  have h0 : colorWrapFuel (fuel + 1) ('$' :: braceL :: rest2) =
      (if ('$' : Char) = '$' then
        (if braceL = braceL then
          (match rest2.dropWhile isWordChar with
           | c3' :: tail' =>
             if c3' = braceR ∧ rest2.takeWhile isWordChar ≠ [] then
               colorSub (rest2.takeWhile isWordChar) ++ colorWrapFuel fuel tail'
             else '$' :: colorWrapFuel fuel (braceL :: rest2)
           | [] => '$' :: colorWrapFuel fuel (braceL :: rest2))
         else '$' :: colorWrapFuel fuel (braceL :: rest2))
       else '$' :: colorWrapFuel fuel (braceL :: rest2)) := rfl
  rw [h0, if_pos rfl, if_pos rfl, hdw]

theorem colorWrapFuel_congr : ∀ (n m : Nat) (l : List Char),
    l.length ≤ n → l.length ≤ m → colorWrapFuel n l = colorWrapFuel m l := by
  intro n
  induction n with
  | zero =>
    intro m l hn _
    have hl : l = [] := List.length_eq_zero.mp (Nat.le_zero.mp hn)
    subst hl
    cases m <;> rfl
  | succ n ih =>
    intro m l hn hm
    cases l with
    | nil => cases m <;> rfl
    | cons c rest =>
      cases m with
      | zero => simp at hm
      | succ m2 =>
        have hrn : rest.length ≤ n := by
          simp only [List.length_cons] at hn
          omega
        have hrm : rest.length ≤ m2 := by
          simp only [List.length_cons] at hm
          omega
        by_cases hc : c = '$'
        · subst hc
          cases rest with
          | nil =>
            rw [colorWrapFuel_succ_dollar_nil, colorWrapFuel_succ_dollar_nil,
              colorWrapFuel_nil, colorWrapFuel_nil]
          | cons c2 rest2 =>
            by_cases hc2 : c2 = braceL
            · subst hc2
              cases hdw : rest2.dropWhile isWordChar with
              | nil =>
                rw [colorWrapFuel_succ_dollar_dwnil n rest2 hdw,
                  colorWrapFuel_succ_dollar_dwnil m2 rest2 hdw,
                  ih m2 (braceL :: rest2) hrn hrm]
              | cons c3 tail =>
                have h1 : (rest2.dropWhile isWordChar).length ≤ rest2.length :=
                  dropWhile_len_le _ _
                rw [hdw] at h1
                simp only [List.length_cons] at h1 hrn hrm
                rw [colorWrapFuel_succ_dollar n rest2 c3 tail hdw,
                  colorWrapFuel_succ_dollar m2 rest2 c3 tail hdw]
                by_cases hcond : c3 = braceR ∧ rest2.takeWhile isWordChar ≠ []
                · rw [if_pos hcond, if_pos hcond, ih m2 tail (by omega) (by omega)]
                · rw [if_neg hcond, if_neg hcond,
                    ih m2 (braceL :: rest2) (by simp only [List.length_cons]; omega)
                      (by simp only [List.length_cons]; omega)]
            · rw [colorWrapFuel_succ_dollar_nb n c2 rest2 hc2,
                colorWrapFuel_succ_dollar_nb m2 c2 rest2 hc2,
                ih m2 (c2 :: rest2) hrn hrm]
        · rw [colorWrapFuel_succ_cons n c rest hc, colorWrapFuel_succ_cons m2 c rest hc,
            ih m2 rest hrn hrm]

theorem takeWhile_all_append (p : Char → Bool) (x : Char) (hx : p x = false) :
    ∀ (w r : List Char), (∀ ch ∈ w, p ch = true) →
      (w ++ x :: r).takeWhile p = w ∧ (w ++ x :: r).dropWhile p = x :: r := by
  intro w
  induction w with
  | nil =>
    intro r _
    constructor
    · rw [List.nil_append, List.takeWhile_cons, hx]
      simp
    · rw [List.nil_append, List.dropWhile_cons, hx]
      simp
  | cons a w2 ih =>
    intro r hw
    have ha : p a = true := hw a (List.mem_cons_self _ _)
    have hw2 : ∀ ch ∈ w2, p ch = true := fun ch hch => hw ch (List.mem_cons_of_mem _ hch)
    obtain ⟨h1, h2⟩ := ih r hw2
    constructor
    · rw [List.cons_append, List.takeWhile_cons, ha]
      simp only [if_true, h1]
    · rw [List.cons_append, List.dropWhile_cons, ha]
      simp only [if_true, h2]

/-- C8: `color_wrap` is the pure transform the claim describes, stated by
its three defining equations: a placeholder token made of a nonempty word
`name` between the dollar-brace markers is replaced by `colorSub name`
(the `\x03` control byte plus the two-digit code for a recognized colour
name, the bare name for an unrecognized one) and scanning continues after
the token; any character that does not open a token is copied unchanged;
the empty string maps to itself. -/
theorem color_wrap_spec (w rest : List Char) (c : Char) :
    (w ≠ [] → (∀ ch ∈ w, isWordChar ch = true) →
      color_wrap ('$' :: braceL :: (w ++ braceR :: rest)) =
        colorSub w ++ color_wrap rest) ∧
    (c ≠ '$' → color_wrap (c :: rest) = c :: color_wrap rest) ∧
    color_wrap ([] : List Char) = [] := by
  refine ⟨?_, ?_, rfl⟩
  · intro hw hall
    have hbr : isWordChar braceR = false := by decide
    obtain ⟨htw, hdw⟩ := takeWhile_all_append isWordChar braceR hbr w rest hall
    show colorWrapFuel ('$' :: braceL :: (w ++ braceR :: rest)).length
        ('$' :: braceL :: (w ++ braceR :: rest)) = colorSub w ++ color_wrap rest
    rw [List.length_cons,
      colorWrapFuel_succ_dollar (braceL :: (w ++ braceR :: rest)).length
        (w ++ braceR :: rest) braceR rest hdw, htw, if_pos ⟨rfl, hw⟩]
    congr 1
    exact colorWrapFuel_congr _ _ rest
      (by simp only [List.length_cons, List.length_append]; omega) (le_refl _)
  · intro hc
    show colorWrapFuel (c :: rest).length (c :: rest) = c :: color_wrap rest
    rw [List.length_cons, colorWrapFuel_succ_cons rest.length c rest hc]
    rfl

theorem color_wrap_spec_witness :
    ("red".data ≠ [] ∧ (∀ ch ∈ "red".data, isWordChar ch = true) ∧
      color_wrap ('$' :: braceL :: ("red".data ++ braceR :: [])) =
        colorSub "red".data ++ color_wrap []) ∧
    ('h' ≠ '$' ∧ color_wrap ('h' :: []) = 'h' :: color_wrap []) :=
  ⟨⟨by decide, by decide,
    (color_wrap_spec "red".data [] 'h').1 (by decide) (by decide)⟩,
   ⟨by decide, (color_wrap_spec "red".data [] 'h').2.1 (by decide)⟩⟩

/-! ## Round-trip of code and args (C9) -/

theorem joinTokens_cons (x : List Char) (xs : List (List Char)) :
    joinTokens (x :: xs) = (' ' :: x) ++ joinTokens xs := rfl

theorem splitSp1_join : ∀ l : List Char,
    (splitSp1 l).1 ++ joinTokens (splitSp1 l).2 = l := by
  intro l
  induction l with
  | nil => rfl
  | cons c rest ih =>
    by_cases hc : c = ' '
    · subst hc
      simp only [splitSp1, eq_self_iff_true, if_true, joinTokens_cons, List.nil_append,
        List.cons_append]
      rw [ih]
    · simp only [splitSp1, if_neg hc, List.cons_append]
      rw [ih]

theorem splitSp1_append (l2 : List Char) : ∀ l1 : List Char,
    splitSp1 (l1 ++ ' ' :: l2) =
      ((splitSp1 l1).1, (splitSp1 l1).2 ++ (splitSp1 l2).1 :: (splitSp1 l2).2) := by
  intro l1
  induction l1 with
  | nil =>
    simp only [List.nil_append, splitSp1, if_pos rfl]
    rfl
  | cons c l1' ih =>
    by_cases hc : c = ' '
    · subst hc
      simp only [List.cons_append, List.append_eq, splitSp1, eq_self_iff_true, if_true, ih]
    · simp only [List.cons_append, List.append_eq, splitSp1, if_neg hc, ih]

theorem splitSp1_no_space : ∀ l : List Char,
    containsChar ' ' l = false → splitSp1 l = (l, []) := by
  intro l
  induction l with
  | nil => intro _; rfl
  | cons c rest ih =>
    intro h
    have h2 : ((c == ' ') || containsChar ' ' rest) = false := h
    obtain ⟨hc, hrest⟩ := Bool.or_eq_false_iff.mp h2
    have hc2 : ¬(c = ' ') := by
      intro hcc
      rw [hcc] at hc
      simp at hc
    simp only [splitSp1, if_neg hc2]
    rw [ih hrest]

theorem unparseArgs_append (a : List Char) : ∀ plain : List (List Char),
    unparseArgs (plain ++ [a]) =
      joinTokens plain ++ (if containsChar ' ' a then ' ' :: ':' :: a else ' ' :: a) := by
  intro plain
  induction plain with
  | nil =>
    simp only [List.nil_append]
    rfl
  | cons p ps ih =>
    cases hq : ps ++ [a] with
    | nil => exact absurd hq (by simp)
    | cons q qs =>
      have h1 : unparseArgs ((p :: ps) ++ [a]) = (' ' :: p) ++ unparseArgs (q :: qs) := by
        rw [List.cons_append, hq]
        rfl
      rw [h1, ← hq, ih, joinTokens_cons, List.append_assoc]

theorem occursIn_sep_no_space : ∀ l : List Char,
    containsChar ' ' l = false → occursIn sepSpColon l = false := by
  intro l
  induction l with
  | nil => intro _; rfl
  | cons c rest ih =>
    intro h
    have h2 : ((c == ' ') || containsChar ' ' rest) = false := h
    obtain ⟨hc, hrest⟩ := Bool.or_eq_false_iff.mp h2
    show (startsWithSub sepSpColon (c :: rest) || occursIn sepSpColon rest) = false
    rw [ih hrest, Bool.or_false]
    show ((' ' == c) && startsWithSub [':'] rest) = false
    have hcc : (' ' == c) = false := by
      cases hx : (' ' == c)
      · rfl
      · have hceq : ' ' = c := beq_iff_eq.mp hx
        rw [← hceq] at hc
        simp at hc
    rw [hcc, Bool.false_and]

theorem splitOnFirst_none_of_clean (sep : List Char) : ∀ l : List Char,
    occursIn sep l = false → splitOnFirst sep l = (l, none) := by
  intro l
  induction l with
  | nil => intro _; rfl
  | cons c rest ih =>
    intro h
    have h2 : (startsWithSub sep (c :: rest) || occursIn sep rest) = false := h
    obtain ⟨hsw, hrest⟩ := Bool.or_eq_false_iff.mp h2
    have hsw2 : ¬(startsWithSub sep (c :: rest) = true) := by
      rw [hsw]
      simp
    simp only [splitOnFirst, if_neg hsw2]
    rw [ih hrest]

theorem startsWithSub_append_of (s x t : List Char) (h : startsWithSub s x = true) :
    startsWithSub s (x ++ t) = true := by
  rcases (startsWithSub_iff s x).1 h with ⟨u, rfl⟩
  exact (startsWithSub_iff s _).2 ⟨u ++ t, by simp⟩

theorem splitOnFirst_fst_pre (sep : List Char) :
    ∀ l, ∃ t, (splitOnFirst sep l).1 ++ t = l := by
  intro l
  induction l with
  | nil => exact ⟨[], rfl⟩
  | cons c rest ih =>
    by_cases hs : startsWithSub sep (c :: rest) = true
    · refine ⟨c :: rest, ?_⟩
      simp only [splitOnFirst, if_pos hs]
      rfl
    · rcases ih with ⟨t, ht⟩
      refine ⟨t, ?_⟩
      simp only [splitOnFirst, if_neg hs]
      rw [List.cons_append, ht]

theorem splitOnFirst_fst_clean (sep : List Char) (hsep : sep ≠ []) :
    ∀ l, occursIn sep (splitOnFirst sep l).1 = false := by
  have hnil : occursIn sep [] = false := by
    cases sep with
    | nil => exact absurd rfl hsep
    | cons s ss => rfl
  intro l
  induction l with
  | nil => exact hnil
  | cons c rest ih =>
    by_cases hs : startsWithSub sep (c :: rest) = true
    · simp only [splitOnFirst, if_pos hs]
      exact hnil
    · simp only [splitOnFirst, if_neg hs]
      show (startsWithSub sep (c :: (splitOnFirst sep rest).1) ||
        occursIn sep (splitOnFirst sep rest).1) = false
      rw [ih, Bool.or_false]
      cases hx : startsWithSub sep (c :: (splitOnFirst sep rest).1) with
      | false => rfl
      | true =>
        exfalso
        rcases splitOnFirst_fst_pre sep rest with ⟨t, ht⟩
        have h3 : startsWithSub sep ((c :: (splitOnFirst sep rest).1) ++ t) = true :=
          startsWithSub_append_of _ _ _ hx
        rw [List.cons_append, ht] at h3
        exact hs h3

theorem occursIn_sep_append_no (after : List Char)
    (hns : containsChar ' ' after = false) (hnc : startsWithSub [':'] after = false) :
    ∀ b, occursIn sepSpColon b = false →
      occursIn sepSpColon (b ++ ' ' :: after) = false := by
  intro b
  induction b with
  | nil =>
    intro _
    show (startsWithSub sepSpColon (' ' :: after) || occursIn sepSpColon after) = false
    rw [occursIn_sep_no_space after hns, Bool.or_false]
    show ((' ' == ' ') && startsWithSub [':'] after) = false
    rw [hnc, Bool.and_false]
  | cons c b' ihb =>
    intro hcb
    have hb2 : (startsWithSub sepSpColon (c :: b') || occursIn sepSpColon b') = false := hcb
    obtain ⟨hsw0, hb'⟩ := Bool.or_eq_false_iff.mp hb2
    show (startsWithSub sepSpColon (c :: (b' ++ ' ' :: after)) ||
      occursIn sepSpColon (b' ++ ' ' :: after)) = false
    rw [ihb hb', Bool.or_false]
    show ((' ' == c) && startsWithSub [':'] (b' ++ ' ' :: after)) = false
    cases hcc : (' ' == c) with
    | false => rw [Bool.false_and]
    | true =>
      rw [Bool.true_and]
      cases b' with
      | nil =>
        show startsWithSub [':'] (' ' :: after) = false
        simp [startsWithSub]
      | cons d b'' =>
        show ((':' == d) && startsWithSub [] (b'' ++ ' ' :: after)) = false
        have hsw1 : ((' ' == c) && ((':' == d) && true)) = false := hsw0
        rw [hcc, Bool.true_and, Bool.and_true] at hsw1
        rw [hsw1, Bool.false_and]

theorem splitOnFirst_reconstruct (a : List Char) :
    ∀ b, occursIn sepSpColon b = false →
      splitOnFirst sepSpColon (b ++ sepSpColon ++ a) = (b, some a) := by
  intro b
  induction b with
  | nil =>
    intro _
    show splitOnFirst sepSpColon (' ' :: ':' :: a) = ([], some a)
    have hsw : startsWithSub sepSpColon (' ' :: ':' :: a) = true := by
      simp [sepSpColon, startsWithSub]
    simp only [splitOnFirst, if_pos hsw]
    rfl
  | cons c b' ih =>
    intro hb
    have hb2 : (startsWithSub sepSpColon (c :: b') || occursIn sepSpColon b') = false := hb
    obtain ⟨hsw0, hb'⟩ := Bool.or_eq_false_iff.mp hb2
    show splitOnFirst sepSpColon (c :: (b' ++ sepSpColon ++ a)) = (c :: b', some a)
    have hswX : startsWithSub sepSpColon (c :: (b' ++ sepSpColon ++ a)) = false := by
      show ((' ' == c) && startsWithSub [':'] (b' ++ sepSpColon ++ a)) = false
      cases hcc : (' ' == c) with
      | false => rw [Bool.false_and]
      | true =>
        rw [Bool.true_and]
        cases b' with
        | nil =>
          show startsWithSub [':'] (' ' :: ':' :: a) = false
          simp [startsWithSub]
        | cons d b'' =>
          show startsWithSub [':'] (d :: (b'' ++ sepSpColon ++ a)) = false
          have hsw1 : ((' ' == c) && ((':' == d) && true)) = false := hsw0
          rw [hcc, Bool.true_and, Bool.and_true] at hsw1
          show ((':' == d) && startsWithSub [] (b'' ++ sepSpColon ++ a)) = false
          rw [hsw1, Bool.false_and]
    have hswX2 : ¬(startsWithSub sepSpColon (c :: (b' ++ sepSpColon ++ a)) = true) := by
      rw [hswX]
      simp
    simp only [splitOnFirst, if_neg hswX2]
    rw [ih hb']

/-- C9: for every remainder line that is well formed and carries a
trailing-parameter segment, re-joining the parsed `code` and `args` —
each argument prefixed by a space, the last one quoted with `" :"` exactly
when it contains a space — produces a line the parser maps to the same
`code` and `args`, i.e. an equivalent line. -/
theorem round_trip (msgRest : List Char) (h : wellFormedTrailing msgRest = true) :
    parseRemainder (unparse (parseRemainder msgRest).1 (parseRemainder msgRest).2) =
      parseRemainder msgRest := by
  rcases hsp : splitOnFirst sepSpColon msgRest with ⟨before, o⟩
  cases o with
  | none =>
    exfalso
    unfold wellFormedTrailing at h
    rw [hsp] at h
    have h2 : false = true := h
    exact absurd h2 (by decide)
  | some after =>
    unfold wellFormedTrailing at h
    rw [hsp] at h
    have h' : (containsChar ' ' after || !(startsWithSub [':'] after)) = true := h
    have hpr : parseRemainder msgRest =
        ((splitSp1 before).1, (splitSp1 before).2 ++ [after]) := by
      unfold parseRemainder
      rw [hsp]
    rw [hpr]
    have hclean : occursIn sepSpColon before = false := by
      have h2 := splitOnFirst_fst_clean sepSpColon (by simp [sepSpColon]) msgRest
      rw [hsp] at h2
      exact h2
    have hun : unparse (splitSp1 before).1 ((splitSp1 before).2 ++ [after]) =
        before ++ (if containsChar ' ' after then ' ' :: ':' :: after else ' ' :: after) := by
      unfold unparse
      rw [unparseArgs_append, ← List.append_assoc, splitSp1_join]
    rw [hun]
    by_cases hsp2 : containsChar ' ' after = true
    · rw [if_pos hsp2]
      have heq2 : before ++ ' ' :: ':' :: after = before ++ sepSpColon ++ after := by
        rw [List.append_assoc]
        rfl
      rw [heq2]
      unfold parseRemainder
      rw [splitOnFirst_reconstruct after before hclean]
    · rw [if_neg hsp2]
      have hns : containsChar ' ' after = false := by
        cases hx : containsChar ' ' after
        · rfl
        · exact absurd hx hsp2
      have hnc : startsWithSub [':'] after = false := by
        rw [hns, Bool.false_or] at h'
        cases hx : startsWithSub [':'] after
        · rfl
        · rw [hx] at h'
          exact absurd h' (by decide)
      have hocc : occursIn sepSpColon (before ++ ' ' :: after) = false :=
        occursIn_sep_append_no after hns hnc before hclean
      unfold parseRemainder
      rw [splitOnFirst_none_of_clean sepSpColon (before ++ ' ' :: after) hocc]
      show splitSp1 (before ++ ' ' :: after) =
        ((splitSp1 before).1, (splitSp1 before).2 ++ [after])
      rw [splitSp1_append after before, splitSp1_no_space after hns]

theorem parseWith_code_args (line : List Char) (src : Option (List Char)) (m : List Char)
    (e : Event) (h : parseWith line src m = some e) :
    e.code = (parseRemainder m).1 ∧ e.args = (parseRemainder m).2 := by
  unfold parseWith at h
  rcases hr : parseRemainder m with ⟨code, args⟩
  rw [hr] at h
  cases args with
  | nil => exact absurd h (by simp)
  | cons a0 r =>
    injection h with h2
    subst h2
    exact ⟨rfl, rfl⟩

/-- C9 (as a statement about parser events): for every Event the parser
builds from a well-formed remainder with a trailing-parameter segment,
re-joining its `code` and `args` — quoting the last argument with `" :"`
exactly when it contains a space — yields a line that parses back to the
same `code` and `args`. -/
theorem event_round_trip (line : List Char) (src : Option (List Char))
    (msgRest : List Char) (e : Event) (hp : parseWith line src msgRest = some e)
    (hwf : wellFormedTrailing msgRest = true) :
    parseRemainder (unparse e.code e.args) = (e.code, e.args) := by
  obtain ⟨hc, ha⟩ := parseWith_code_args line src msgRest e hp
  rw [hc, ha, round_trip msgRest hwf]

theorem event_round_trip_witness :
    parseRemainder (unparse
        (Event.mk "PRIVMSG #chan :hello world".data none none none none
          "PRIVMSG".data ["#chan".data, "hello world".data] "hello world".data
          (some "#chan".data)).code
        (Event.mk "PRIVMSG #chan :hello world".data none none none none
          "PRIVMSG".data ["#chan".data, "hello world".data] "hello world".data
          (some "#chan".data)).args) =
      ((Event.mk "PRIVMSG #chan :hello world".data none none none none
          "PRIVMSG".data ["#chan".data, "hello world".data] "hello world".data
          (some "#chan".data)).code,
        (Event.mk "PRIVMSG #chan :hello world".data none none none none
          "PRIVMSG".data ["#chan".data, "hello world".data] "hello world".data
          (some "#chan".data)).args) :=
  event_round_trip "PRIVMSG #chan :hello world".data none
    "PRIVMSG #chan :hello world".data _ (by decide) (by decide)
